import Mathlib

/-!
Verification of the `memlog` Go package: a bounded in-memory log
(`mem_log.go`) and a line-oriented `io.Writer` adapter (`string_log.go`).

The `container/list` doubly linked list held by `memLog[T]` is embedded as
a Lean `List T` ordered oldest first: the Go list's front is the head of
the Lean list and its back is the last element.  The Go `int` fields and
parameters (`max`, the `n` of `SliceN`) are embedded as `Int`; slice
lengths, which are never negative, as `Nat`.  The mutex serializes calls
and has no effect on the sequential semantics embedded here.
-/

namespace Memlog

/-- The Go constant `allElements = -1` from mem_log.go. -/
def allElements : Int := -1

/-- Embedding of `memLog[T]` from mem_log.go: `lst` is the linked list,
oldest element first, and `max` is the capacity field. -/
structure MemLog (T : Type) where
  lst : List T
  max : Int
  deriving DecidableEq, Repr

/-- `New[T](maxEntries)`: a zero-valued `list.List` (empty) with the given
capacity. -/
def New (T : Type) (maxEntries : Int) : MemLog T :=
  { lst := [], max := maxEntries }

/-- `Len()`: the length of the internal list. -/
def Len {T : Type} (m : MemLog T) : Nat :=
  m.lst.length

/-- `Append(item)`: `PushBack(item)`, then if the length exceeds `max`,
`Remove(Front())` — dropping the head of the list. -/
def Append {T : Type} (m : MemLog T) (item : T) : MemLog T :=
  let l := m.lst ++ [item]
  if (l.length : Int) > m.max then { m with lst := l.tail }
  else { m with lst := l }

/-- `Clear()`: `lst.Init()` resets the list to empty; `max` is untouched. -/
def Clear {T : Type} (m : MemLog T) : MemLog T :=
  { m with lst := [] }

/-- The loop of `toSlice(n)`: the first argument is the list as read from
`Back()` via `Prev()` (i.e. reversed), the second is the number of slots
still to fill (`idx + 1`), and the accumulator is the filled right part of
the slice.  The loop stops when either the walk reaches `nil` or `idx`
goes negative.  When `n` exceeds the list length the Go slice keeps
zero-valued entries in its unfilled prefix; both call sites pass
`n ≤ lst.Len()`, so that prefix is empty and is not modelled. -/
def toSliceWalk {T : Type} : List T → Nat → List T → List T
  | _, 0, acc => acc
  | [], _ + 1, acc => acc
  | e :: rest, n + 1, acc => toSliceWalk rest n (e :: acc)

/-- `toSlice(n)` from mem_log.go: walk the list backward from the tail,
filling the result slice from its last position down. -/
def toSlice {T : Type} (m : MemLog T) (n : Nat) : List T :=
  toSliceWalk m.lst.reverse n []

/-- `SliceN(n)`: clamp `n` to the current length when `n ≤ allElements`
or `n > len`, then extract with `toSlice`. -/
def SliceN {T : Type} (m : MemLog T) (n : Int) : List T :=
  let len : Int := (m.lst.length : Int)
  let n2 : Int := if n ≤ allElements ∨ n > len then len else n
  toSlice m n2.toNat

/-- `Slice()` = `SliceN(allElements)`. -/
def Slice {T : Type} (m : MemLog T) : List T :=
  SliceN m allElements

/-- The loop of `toSlicex(n, len)`: iterates `len` times over the list
from `Front()`; while `i < first` it only advances, afterwards it copies.
The second argument is the remaining iteration count `len - i`, the third
the remaining skip count `first - i`.  In Go the iteration would
dereference `nil` if `len` exceeded the list length; both are equal at
the (dead) call site, so the `[]` case is unreachable then. -/
def toSlicexLoop {T : Type} : List T → Nat → Nat → List T
  | _, 0, _ => []
  | [], _ + 1, _ => []
  | x :: rest, k + 1, skip =>
      match skip with
      | 0 => x :: toSlicexLoop rest k 0
      | s + 1 => toSlicexLoop rest k s

/-- `toSlicex(n, len)` from mem_log.go: `first := len - n`, then the
forward scan that skips the first `first` elements and copies the rest. -/
def toSlicex {T : Type} (m : MemLog T) (n len : Nat) : List T :=
  toSlicexLoop m.lst len (len - n)

/-- State-passing form of `Len()`: the body only reads `lst.Len()` under
the lock, so the container component of the result is the input state. -/
def LenSt {T : Type} (m : MemLog T) : Nat × MemLog T :=
  (m.lst.length, m)

/-- State-passing form of `SliceN(n)`: the body reads `lst.Len()`,
`Back()`, `Prev()` and `Value`, and writes only into the slice freshly
allocated by `make`; the container component of the result is the input
state. -/
def SliceNSt {T : Type} (m : MemLog T) (n : Int) : List T × MemLog T :=
  let len : Int := (m.lst.length : Int)
  let n2 : Int := if n ≤ allElements ∨ n > len then len else n
  (toSliceWalk m.lst.reverse n2.toNat [], m)

/-- State-passing form of `Slice()` = `SliceN(allElements)`. -/
def SliceSt {T : Type} (m : MemLog T) : List T × MemLog T :=
  SliceNSt m allElements

/-- The characters of the cutset `"\r\n"` of `strings.Trim` in
string_log.go. -/
def isCRLF (c : Char) : Bool :=
  c = '\r' || c = '\n'

/-- `strings.Trim(s, "\r\n")` from the Go standard library: removes both
leading and trailing characters of the cutset.  Strings are embedded as
their character lists. -/
def trimCRLF (s : List Char) : List Char :=
  ((s.dropWhile isCRLF).reverse.dropWhile isCRLF).reverse

/-- Embedding of `StringLog` from string_log.go. -/
structure StringLog where
  Buffer : MemLog (List Char)
  deriving DecidableEq, Repr

/-- `NewStringLog(size)`. -/
def NewStringLog (size : Int) : StringLog :=
  { Buffer := New (List Char) size }

/-- `Write(p)` from string_log.go: appends `strings.Trim(string(p), "\r\n")`
as one element and returns `(len(p), nil)`.  The `error` result is
embedded as `Option String` with `none` for `nil`, and the byte slice `p`
as the character list it decodes to. -/
def StringLog.Write (s : StringLog) (p : List Char) :
    (Nat × Option String) × StringLog :=
  ((p.length, none), { Buffer := Append s.Buffer (trimCRLF p) })

/-- Specification model: the suffix of the last `n` elements of a list. -/
def lastN {T : Type} (n : Nat) (l : List T) : List T :=
  l.drop (l.length - n)

/-- Specification model of the spec sentence "trailing carriage-return /
line-feed characters stripped (and only trailing ones)": removes the
trailing cutset characters and nothing else. -/
def stripTrailingCRLF (s : List Char) : List Char :=
  (s.reverse.dropWhile isCRLF).reverse

/-! ### Helper lemmas -/

theorem toSliceWalk_eq {T : Type} (rev : List T) (n : Nat) (acc : List T) :
    toSliceWalk rev n acc = (rev.take n).reverse ++ acc := by
  induction rev generalizing n acc with
  | nil => cases n <;> simp [toSliceWalk]
  | cons e rest ih =>
    cases n with
    | zero => simp [toSliceWalk]
    | succ k => simp [toSliceWalk, ih]

theorem toSlice_eq_lastN {T : Type} (m : MemLog T) (n : Nat) :
    toSlice m n = lastN n m.lst := by
  simp [toSlice, toSliceWalk_eq, lastN, List.take_reverse]

theorem lastN_length {T : Type} (n : Nat) (l : List T) :
    (lastN n l).length = min n l.length := by
  simp [lastN]
  omega

theorem lastN_of_le {T : Type} {n : Nat} {l : List T} (h : l.length ≤ n) :
    lastN n l = l := by
  simp [lastN, Nat.sub_eq_zero_of_le h]

theorem lastN_append_absorb {T : Type} (k : Nat) (a b : List T) :
    lastN k (lastN k a ++ b) = lastN k (a ++ b) := by
  unfold lastN
  rw [← List.drop_append_of_le_length (by omega : a.length - k ≤ a.length),
    List.drop_drop]
  congr 1
  simp
  omega

theorem Slice_eq_lst {T : Type} (m : MemLog T) : Slice m = m.lst := by
  simp only [Slice, SliceN, allElements, le_refl, true_or, if_pos,
    Int.toNat_natCast, toSlice_eq_lastN]
  exact lastN_of_le le_rfl

theorem Append_max {T : Type} (m : MemLog T) (x : T) :
    (Append m x).max = m.max := by
  simp only [Append]
  split <;> rfl

theorem Append_lst {T : Type} (m : MemLog T) (x : T)
    (h : (m.lst.length : Int) ≤ m.max) :
    (Append m x).lst = lastN m.max.toNat (m.lst ++ [x]) := by
  simp only [Append]
  split
  · next hc =>
    simp only [List.length_append, List.length_cons, List.length_nil] at hc
    push_cast at hc
    have hd : (m.lst ++ [x]).length - m.max.toNat = 1 := by
      simp only [List.length_append, List.length_cons, List.length_nil]
      omega
    rw [lastN, hd, List.drop_one]
  · next hc =>
    simp only [List.length_append, List.length_cons, List.length_nil] at hc
    push_cast at hc
    refine (lastN_of_le ?_).symm
    simp only [List.length_append, List.length_cons, List.length_nil]
    omega

theorem foldl_Append_lst {T : Type} (xs : List T) (m : MemLog T)
    (h : (m.lst.length : Int) ≤ m.max) :
    (List.foldl Append m xs).lst = lastN m.max.toNat (m.lst ++ xs) ∧
    (List.foldl Append m xs).max = m.max := by
  induction xs generalizing m with
  | nil =>
    refine ⟨?_, rfl⟩
    simp only [List.foldl_nil, List.append_nil]
    exact (lastN_of_le (by omega)).symm
  | cons x xs ih =>
    have h1 : (((Append m x).lst.length : Int)) ≤ (Append m x).max := by
      rw [Append_max, Append_lst m x h]
      have := lastN_length m.max.toNat (m.lst ++ [x])
      omega
    have ihx := ih (Append m x) h1
    rw [List.foldl_cons]
    refine ⟨?_, by rw [ihx.2, Append_max]⟩
    rw [ihx.1, Append_max, Append_lst m x h, lastN_append_absorb]
    simp

theorem foldl_Append_empty_nonpos {T : Type} (xs : List T) (m : MemLog T)
    (h0 : m.lst = []) (hmax : m.max ≤ 0) :
    (List.foldl Append m xs).lst = [] ∧ (List.foldl Append m xs).max = m.max := by
  induction xs generalizing m with
  | nil => exact ⟨h0, rfl⟩
  | cons x xs ih =>
    have hx : (Append m x).lst = [] := by
      simp only [Append, h0]
      split
      · rfl
      · next hc =>
        exfalso
        simp at hc
        omega
    have := ih (Append m x) hx (by rw [Append_max]; exact hmax)
    rw [List.foldl_cons]
    exact ⟨this.1, by rw [this.2, Append_max]⟩

theorem toSlicexLoop_eq {T : Type} (l : List T) (s : Nat) :
    toSlicexLoop l l.length s = l.drop s := by
  induction l generalizing s with
  | nil => simp [toSlicexLoop]
  | cons x rest ih =>
    cases s with
    | zero => simpa [toSlicexLoop] using ih 0
    | succ s => simpa [toSlicexLoop] using ih s

/-- The character list of the string "Test message" from the adapter
tests and the spec's example scenario. -/
def testMessage : List Char :=
  ['T', 'e', 's', 't', ' ', 'm', 'e', 's', 's', 'a', 'g', 'e']

/-! ### Claim theorems -/

/-- C1: for every capacity `C ≥ 1` and every sequence of appends into a
freshly constructed container, the length never exceeds the capacity (at
every prefix of the run), the final length is `min N C`, and the retained
elements are exactly the most recently appended `min N C` elements in
append order, oldest first. -/
theorem append_run_spec (T : Type) (C : Nat) (_hC : 1 ≤ C) (xs : List T) :
    Len (List.foldl Append (New T (C : Int)) xs) = min xs.length C ∧
    (∀ i : Nat, Len (List.foldl Append (New T (C : Int)) (xs.take i)) ≤ C) ∧
    Slice (List.foldl Append (New T (C : Int)) xs) = lastN C xs := by
  have key : ∀ ys : List T,
      (List.foldl Append (New T (C : Int)) ys).lst = lastN C ys := by
    intro ys
    have h := foldl_Append_lst ys (New T (C : Int)) (by simp [New])
    simpa [New] using h.1
  refine ⟨?_, ?_, ?_⟩
  · simp only [Len, key xs, lastN_length]
    omega
  · intro i
    simp only [Len, key (xs.take i), lastN_length]
    omega
  · rw [Slice_eq_lst, key xs]

/-- Witness for `append_run_spec` at capacity 2 and three appends. -/
theorem append_run_spec_witness :
    1 ≤ 2 ∧
    Len (List.foldl Append (New Nat ((2 : Nat) : Int)) [10, 20, 30]) =
      min [10, 20, 30].length 2 ∧
    Len (List.foldl Append (New Nat ((2 : Nat) : Int)) ([10, 20, 30].take 2)) ≤ 2 ∧
    Slice (List.foldl Append (New Nat ((2 : Nat) : Int)) [10, 20, 30]) =
      lastN 2 [10, 20, 30] :=
  ⟨by decide, (append_run_spec Nat 2 (by decide) [10, 20, 30]).1,
    (append_run_spec Nat 2 (by decide) [10, 20, 30]).2.1 2,
    (append_run_spec Nat 2 (by decide) [10, 20, 30]).2.2⟩

/-- C2: `SliceN k` returns the last `k` retained elements (oldest first)
for `0 ≤ k ≤ Len`, all retained elements for `k > Len`, and all retained
elements for every negative `k` (the sentinel); it is total, so no
out-of-range `k` fails. -/
theorem sliceN_spec {T : Type} (m : MemLog T) (k : Int) :
    (0 ≤ k → k ≤ (Len m : Int) → SliceN m k = lastN k.toNat m.lst) ∧
    ((Len m : Int) < k → SliceN m k = m.lst) ∧
    (k < 0 → SliceN m k = m.lst) := by
  simp only [Len] at *
  refine ⟨?_, ?_, ?_⟩
  · intro h1 h2
    simp only [SliceN, allElements]
    rw [if_neg (by omega)]
    exact toSlice_eq_lastN m k.toNat
  · intro h
    simp only [SliceN, allElements]
    rw [if_pos (Or.inr h), toSlice_eq_lastN]
    simp only [Int.toNat_natCast]
    exact lastN_of_le le_rfl
  · intro h
    simp only [SliceN, allElements]
    rw [if_pos (Or.inl (by omega)), toSlice_eq_lastN]
    simp only [Int.toNat_natCast]
    exact lastN_of_le le_rfl

/-- Witness for `sliceN_spec` on a three-element log with capacity 5:
an in-range count, an oversized count, and a negative sentinel. -/
theorem sliceN_spec_witness :
    ((0 : Int) ≤ 2 ∧ (2 : Int) ≤ (Len (MemLog.mk [1, 2, 3] 5) : Int) ∧
      SliceN (MemLog.mk [1, 2, 3] 5) 2 = lastN (Int.toNat 2) [1, 2, 3]) ∧
    ((Len (MemLog.mk [1, 2, 3] 5) : Int) < 9 ∧
      SliceN (MemLog.mk [1, 2, 3] 5) 9 = [1, 2, 3]) ∧
    ((-7 : Int) < 0 ∧ SliceN (MemLog.mk [1, 2, 3] 5) (-7) = [1, 2, 3]) :=
  ⟨⟨by decide, by decide,
      (sliceN_spec (MemLog.mk [1, 2, 3] 5) 2).1 (by decide) (by decide)⟩,
    ⟨by decide, (sliceN_spec (MemLog.mk [1, 2, 3] 5) 9).2.1 (by decide)⟩,
    ⟨by decide, (sliceN_spec (MemLog.mk [1, 2, 3] 5) (-7)).2.2 (by decide)⟩⟩

/-- C4: for `0 ≤ n ≤ Len`, the backward walk `toSlice` agrees with the
naive forward full-scan copy `toSlicex` invoked with the list length. -/
theorem toSlice_eq_toSlicex {T : Type} (m : MemLog T) (n : Nat)
    (_h : n ≤ Len m) :
    toSlice m n = toSlicex m n (Len m) := by
  rw [toSlice_eq_lastN]
  simp only [toSlicex, Len, toSlicexLoop_eq]
  rfl

/-- Witness for `toSlice_eq_toSlicex` on a four-element log. -/
theorem toSlice_eq_toSlicex_witness :
    2 ≤ Len (MemLog.mk [1, 2, 3, 4] 5) ∧
    toSlice (MemLog.mk [1, 2, 3, 4] 5) 2 =
      toSlicex (MemLog.mk [1, 2, 3, 4] 5) 2 (Len (MemLog.mk [1, 2, 3, 4] 5)) :=
  ⟨by decide, toSlice_eq_toSlicex (MemLog.mk [1, 2, 3, 4] 5) 2 (by decide)⟩

/-- C5: a container constructed with capacity ≤ 0 is degenerate: after
any sequence of appends the length is 0 and the extracted slice is empty,
because each append immediately evicts the element it added. -/
theorem nonpositive_capacity_spec (T : Type) (C : Int) (hC : C ≤ 0)
    (xs : List T) :
    Len (List.foldl Append (New T C) xs) = 0 ∧
    Slice (List.foldl Append (New T C) xs) = [] := by
  have h := foldl_Append_empty_nonpos xs (New T C) rfl hC
  exact ⟨by simp [Len, h.1], by rw [Slice_eq_lst, h.1]⟩

/-- Witness for `nonpositive_capacity_spec` at capacity 0 with two appends. -/
theorem nonpositive_capacity_spec_witness :
    (0 : Int) ≤ 0 ∧
    Len (List.foldl Append (New Nat 0) [7, 8]) = 0 ∧
    Slice (List.foldl Append (New Nat 0) [7, 8]) = [] :=
  ⟨by decide, (nonpositive_capacity_spec Nat 0 (by decide) [7, 8]).1,
    (nonpositive_capacity_spec Nat 0 (by decide) [7, 8]).2⟩

/-- C6: after `Clear` the length is 0, the slice is empty, the capacity
field is unchanged, and any subsequent run of appends stays bounded by
that same capacity. -/
theorem clear_spec {T : Type} (m : MemLog T) (xs : List T) :
    Len (Clear m) = 0 ∧
    Slice (Clear m) = [] ∧
    (Clear m).max = m.max ∧
    Len (List.foldl Append (Clear m) xs) ≤ m.max.toNat := by
  refine ⟨rfl, by rw [Slice_eq_lst]; rfl, rfl, ?_⟩
  by_cases h : 0 ≤ m.max
  · have hfold := foldl_Append_lst xs (MemLog.mk [] m.max) (by simpa using h)
    have hlen : Len (List.foldl Append (Clear m) xs) =
        (lastN m.max.toNat xs).length := by
      show Len (List.foldl Append (MemLog.mk [] m.max) xs) = _
      rw [Len, hfold.1]
      rfl
    rw [hlen, lastN_length]
    omega
  · have hfold := foldl_Append_empty_nonpos xs (MemLog.mk [] m.max) rfl
      (by simp only []; omega)
    show Len (List.foldl Append (MemLog.mk [] m.max) xs) ≤ _
    rw [Len, hfold.1]
    simp

/-- C7: the readers `Len`, `Slice` and `SliceN` leave the container state
exactly as it was and return the pure observation of that state. -/
theorem readers_preserve_state {T : Type} (m : MemLog T) (n : Int) :
    LenSt m = (Len m, m) ∧ SliceNSt m n = (SliceN m n, m) ∧
    SliceSt m = (Slice m, m) :=
  ⟨rfl, rfl, rfl⟩

/-- C3 counterexample: writing a byte sequence with a leading CR LF does
not yield the trailing-only-stripped text — the adapter strips the
leading terminators as well. -/
theorem write_trailing_only_cex :
    (StringLog.Write (NewStringLog 100) ('\r' :: '\n' :: ['h', 'i'])).2.Buffer.lst ≠
      [stripTrailingCRLF ('\r' :: '\n' :: ['h', 'i'])] := by
  decide

/-- C3 amended: `Write p` appends exactly one element, equal to `p` with
leading and trailing CR/LF characters stripped: on any state satisfying
the capacity invariant the new contents are the last-capacity suffix of
the old contents extended by that one trimmed element, and below capacity
they are exactly the old contents extended by it. -/
theorem write_appends_one_trimmed (s : StringLog) (p : List Char)
    (h : (Len s.Buffer : Int) ≤ s.Buffer.max) :
    (StringLog.Write s p).2.Buffer.lst =
      lastN s.Buffer.max.toNat (s.Buffer.lst ++ [trimCRLF p]) ∧
    ((Len s.Buffer : Int) < s.Buffer.max →
      Slice (StringLog.Write s p).2.Buffer = Slice s.Buffer ++ [trimCRLF p]) := by
  constructor
  · show (Append s.Buffer (trimCRLF p)).lst = _
    exact Append_lst s.Buffer (trimCRLF p) (by simpa [Len] using h)
  · intro hlt
    rw [Slice_eq_lst, Slice_eq_lst]
    show (Append s.Buffer (trimCRLF p)).lst = s.Buffer.lst ++ [trimCRLF p]
    simp only [Append]
    split
    · next hc =>
      exfalso
      simp only [List.length_append, List.length_cons, List.length_nil] at hc
      simp only [Len] at hlt
      push_cast at hc
      omega
    · rfl

/-- Witness for `write_appends_one_trimmed`: the spec scenario, writing
"Test message" followed by CR LF into a fresh adapter yields the single
element "Test message". -/
theorem write_appends_one_trimmed_witness :
    (Len (NewStringLog 100).Buffer : Int) ≤ (NewStringLog 100).Buffer.max ∧
    (StringLog.Write (NewStringLog 100)
        (testMessage ++ ['\r', '\n'])).2.Buffer.lst =
      lastN (NewStringLog 100).Buffer.max.toNat
        ((NewStringLog 100).Buffer.lst ++ [trimCRLF (testMessage ++ ['\r', '\n'])]) ∧
    (Len (NewStringLog 100).Buffer : Int) < (NewStringLog 100).Buffer.max ∧
    Slice (StringLog.Write (NewStringLog 100)
        (testMessage ++ ['\r', '\n'])).2.Buffer =
      Slice (NewStringLog 100).Buffer ++ [trimCRLF (testMessage ++ ['\r', '\n'])] ∧
    trimCRLF (testMessage ++ ['\r', '\n']) = testMessage :=
  ⟨by decide,
    (write_appends_one_trimmed (NewStringLog 100) (testMessage ++ ['\r', '\n'])
      (by decide)).1,
    by decide,
    (write_appends_one_trimmed (NewStringLog 100) (testMessage ++ ['\r', '\n'])
      (by decide)).2 (by decide),
    by decide⟩

/-- C8: `Write p` always returns the full input length as the consumed
byte count together with a nil error. -/
theorem write_returns_length_no_error (s : StringLog) (p : List Char) :
    (StringLog.Write s p).1 = (p.length, (none : Option String)) :=
  rfl

/-- C9: the adapter strips leading CR/LF as well: prefixing the input
with CR LF leaves the resulting container state unchanged, and writing
CR LF followed by "hello" into a fresh adapter appends the element
"hello". -/
theorem write_strips_leading (s : StringLog) (p : List Char) :
    (StringLog.Write s ('\r' :: '\n' :: p)).2 = (StringLog.Write s p).2 ∧
    Slice (StringLog.Write (NewStringLog 100)
        ('\r' :: '\n' :: ['h', 'e', 'l', 'l', 'o'])).2.Buffer =
      [['h', 'e', 'l', 'l', 'o']] := by
  constructor
  · have h1 : isCRLF '\r' = true := by decide
    have h2 : isCRLF '\n' = true := by decide
    simp [StringLog.Write, trimCRLF, List.dropWhile_cons, h1, h2]
  · decide

end Memlog
